import Mathlib

/-!
Verification of the simtfl simulator's chain and ledger model.

This file gives a shallow embedding of:
* `simtfl/util.py` (`Unique`),
* `simtfl/bft/chain.py` (`PermissionedBFTBase.preceq`, equality, proposals, votes),
* `simtfl/bft/streamlet/chain.py` (`StreamletProposal`, `StreamletGenesis`,
  `StreamletBlock._compute_last_final`),
* `simtfl/bft/streamlet/node.py` (`StreamletNode.handle_block`),
* `simtfl/bc/chain.py` (`BCTransaction`, `BCContext.add_if_valid`),
and proves or refutes the stated properties.

Python object identity is modelled with explicit numeric tags (`pid` for
proposal identity, `txId` for transaction identity, and note identities derived
from the creating transaction): in the source, proposals compare by `is`,
transactions have no `__eq__` (so identity), TXOs are frozen dataclasses whose
`tx` field compares by identity, and notes are `Unique` values keyed by `id` in
dicts.
-/

namespace Simtfl

/-- `two_thirds_threshold` from `simtfl/bft/chain.py`: `(n * 2 + 2) // 3`. -/
def two_thirds_threshold (n : Nat) : Nat := (n * 2 + 2) / 3

/--
A chain of BFT blocks reachable by `parent` links.
`genesis n t` embeds `PermissionedBFTBase(n, t)` (for Streamlet,
`t = two_thirds_threshold n` and the epoch is 0).
`block pid parent epoch` embeds a `StreamletBlock` built from a proposal with
object identity `pid`, the given parent and epoch.
-/
inductive Chain where
  | genesis (n t : Nat)
  | block (pid : Nat) (parent : Chain) (epoch : Nat)
deriving DecidableEq, Repr

namespace Chain

/-- The `epoch` attribute: genesis has epoch 0, a block carries its proposal's epoch. -/
def epochOf : Chain → Nat
  | genesis _ _ => 0
  | block _ _ e => e

/-- The `length` attribute: genesis length 1, a block's length is its parent's plus 1. -/
def lengthOf : Chain → Nat
  | genesis _ _ => 1
  | block _ p _ => lengthOf p + 1

/-- The `n` attribute (number of voters), propagated from genesis. -/
def nOf : Chain → Nat
  | genesis n _ => n
  | block _ p _ => nOf p

/-- The `t` attribute (notarization threshold), propagated from genesis. -/
def tOf : Chain → Nat
  | genesis _ t => t
  | block _ p _ => tOf p

/--
The `__eq__` methods of `PermissionedBFTBase` and `PermissionedBFTBlock`:
a genesis equals another chain iff the other has no parent and has the same
`(n, t)`; a block equals another chain iff the other is a block with the same
`(n, t)` and the identical proposal object (`pid`).
-/
def beq : Chain → Chain → Bool
  | genesis n t, genesis n' t' => n == n' && t == t'
  | genesis _ _, block _ _ _ => false
  | block _ _ _, genesis _ _ => false
  | block pid p _, block pid' p' _ => pid == pid' && nOf p == nOf p' && tOf p == tOf p'

/--
`PermissionedBFTBase.preceq` from `simtfl/bft/chain.py`:
if `self.length > other.length` return `False` (optimization); otherwise
`self == other or (other.parent is not None and self.preceq(other.parent))`.
-/
def preceq (a : Chain) : Chain → Bool
  | genesis n t =>
      if lengthOf a > lengthOf (genesis n t) then false
      else beq a (genesis n t)
  | block pid p e =>
      if lengthOf a > lengthOf (block pid p e) then false
      else beq a (block pid p e) || preceq a p

/-- The ancestor list of a chain: the chain itself, then its parent's ancestors. -/
def ancestors : Chain → List Chain
  | genesis n t => [genesis n t]
  | block pid p e => block pid p e :: ancestors p

/-- The root (genesis) of a chain, reached by following parent links. -/
def root : Chain → Chain
  | genesis n t => genesis n t
  | block _ p _ => root p

/-- Is this chain element a non-genesis block? -/
def isBlock : Chain → Bool
  | genesis _ _ => false
  | block _ _ _ => true

end Chain

open Chain

/-- `StreamletGenesis(n)` from `simtfl/bft/streamlet/chain.py`: genesis with
`t = two_thirds_threshold n` and epoch 0. -/
def streamletGenesis (n : Nat) : Chain := Chain.genesis n (two_thirds_threshold n)

/--
The loop of `StreamletBlock._compute_last_final`, on the window
`(first, middle, last)`: if `first.parent is None` return `first`; if
`(first.epoch + 1, middle.epoch + 1) == (middle.epoch, last.epoch)` return
`middle`; otherwise shift the window to `(first.parent, first, middle)`.
-/
def lastFinalLoop : Chain → Chain → Chain → Chain
  | Chain.genesis n t, _, _ => Chain.genesis n t
  | Chain.block pid p e, middle, lst =>
      if epochOf (Chain.block pid p e) + 1 = epochOf middle ∧
         epochOf middle + 1 = epochOf lst then middle
      else lastFinalLoop p (Chain.block pid p e) middle

/--
`StreamletBlock._compute_last_final` from `simtfl/bft/streamlet/chain.py`:
starting from `last = self`, return `last` if it has no parent, `middle = last.parent`
if that has no parent, and otherwise run the window loop from
`(middle.parent, middle, last)`. For a genesis chain this also matches the
`last_final = self` attribute of `StreamletGenesis`.
-/
def computeLastFinal : Chain → Chain
  | Chain.genesis n t => Chain.genesis n t
  | Chain.block pid p e =>
      match p with
      | Chain.genesis n' t' => Chain.genesis n' t'
      | Chain.block pid' pp e' => lastFinalLoop pp (Chain.block pid' pp e') (Chain.block pid (Chain.block pid' pp e') e)

/--
The sliding windows `(first, middle, last)` examined by the walk starting at
window `(first, middle, last)`, in walk order (closest to the top block first).
-/
def windowsW : Chain → Chain → Chain → List (Chain × Chain × Chain)
  | Chain.genesis n t, middle, lst => [(Chain.genesis n t, middle, lst)]
  | Chain.block pid p e, middle, lst =>
      (Chain.block pid p e, middle, lst) :: windowsW p (Chain.block pid p e) middle

/-- All three-block sliding windows of the ancestor walk of `b`, closest to `b` first. -/
def windows : Chain → List (Chain × Chain × Chain)
  | Chain.genesis _ _ => []
  | Chain.block pid p e =>
      match p with
      | Chain.genesis _ _ => []
      | Chain.block pid' pp e' => windowsW pp (Chain.block pid' pp e') (Chain.block pid (Chain.block pid' pp e') e)

/-- Does a window `(first, middle, last)` have consecutive epochs? -/
def consecWindow (w : Chain × Chain × Chain) : Bool :=
  (epochOf w.1 + 1 == epochOf w.2.1) && (epochOf w.2.1 + 1 == epochOf w.2.2)

/--
A `StreamletProposal` from `simtfl/bft/streamlet/chain.py`. `pid` models the
proposal object's identity; `n` and `t` are copied from the parent at
construction (`super().__init__(parent.n, parent.t)`); `votes` is the set of
voter indices that have voted.
-/
structure StreamletProposal where
  pid : Nat
  n : Nat
  t : Nat
  parent : Chain
  epoch : Nat
  votes : Finset Nat
deriving DecidableEq

/--
The `StreamletProposal` constructor: copies `n`, `t` from the parent, starts
with an empty vote set, and asserts `epoch > parent.epoch` (`none` models the
constructor failing fast with `AssertionError`).
-/
def mkStreamletProposal (pid : Nat) (parent : Chain) (epoch : Nat) : Option StreamletProposal :=
  if epochOf parent < epoch then
    some ⟨pid, nOf parent, tOf parent, parent, epoch, ∅⟩
  else none

namespace StreamletProposal

/--
`PermissionedBFTProposal.add_vote`: insert the voter index into the vote set
(duplicate votes are ignored by set semantics), then assert
`len(self.votes) <= self.n` (`none` models the assertion failing).
-/
def add_vote (p : StreamletProposal) (index : Nat) : Option StreamletProposal :=
  let v := insert index p.votes
  if v.card ≤ p.n then some { p with votes := v } else none

/--
`PermissionedBFTProposal.is_valid`: `StreamletProposal` does not override the
no-op `assert_valid`, so `is_valid` always returns `True`.
-/
def is_valid (_ : StreamletProposal) : Bool := true

/-- `PermissionedBFTProposal.is_notarized`: valid and `len(self.votes) >= self.t`. -/
def is_notarized (p : StreamletProposal) : Bool :=
  p.is_valid && p.t ≤ p.votes.card

end StreamletProposal

/--
The `StreamletBlock` constructor: asserts that the proposal is notarized
(`none` models `AssertionError`), and produces the block with the proposal's
parent and epoch (and, in the embedding, the proposal's identity `pid`).
-/
def mkStreamletBlock (p : StreamletProposal) : Option Chain :=
  if p.is_notarized then some (Chain.block p.pid p.parent p.epoch) else none

/--
A `StreamletProposal` obtained from the constructor followed by any number of
`add_vote` calls (the only operations the protocol performs on proposals).
-/
inductive ConstructedProposal : StreamletProposal → Prop where
  | mk (pid : Nat) (parent : Chain) (epoch : Nat) (p : StreamletProposal)
      (h : mkStreamletProposal pid parent epoch = some p) : ConstructedProposal p
  | vote (p p' : StreamletProposal) (index : Nat) (hp : ConstructedProposal p)
      (h : p.add_vote index = some p') : ConstructedProposal p'

/--
A chain obtained by honest construction: `StreamletGenesis(n)`, or a
`StreamletBlock` built from a constructed proposal whose parent chain was
itself built.
-/
inductive BuiltChain : Chain → Prop where
  | genesis (n : Nat) : BuiltChain (streamletGenesis n)
  | block (p : StreamletProposal) (b : Chain) (hparent : BuiltChain p.parent)
      (hp : ConstructedProposal p) (hb : mkStreamletBlock p = some b) : BuiltChain b

/--
The per-node state of a `StreamletNode` from `simtfl/bft/streamlet/node.py`
(the fields touched by the chain-level handlers; the network plumbing is
external).
-/
structure NodeState where
  genesisB : Chain
  voted_epoch : Nat
  tip : Chain
  proposal : Option StreamletProposal
  safety_violations : Finset (Chain × Chain)
deriving DecidableEq

/-- Python tuple comparison `(a1, a2) >= (b1, b2)`: lexicographic. -/
def tupGe (a b : Nat × Nat) : Bool :=
  b.1 < a.1 || (a.1 == b.1 && b.2 ≤ a.2)

/--
`StreamletNode.handle_block` from `simtfl/bft/streamlet/node.py`:
if `self.tip.last_final.preceq(block.last_final)` fails, leave the tip alone
and record `(block, self.tip)` as a safety violation when additionally
`block.last_final.preceq(self.tip.last_final)` fails; otherwise update the tip
to `block` unless `(self.tip.length, self.tip.epoch) >= (block.length, block.epoch)`.
A block's cached `last_final` attribute is `computeLastFinal` of it.
-/
def handle_block (s : NodeState) (b : Chain) : NodeState :=
  if ¬ (preceq (computeLastFinal s.tip) (computeLastFinal b) = true) then
    if ¬ (preceq (computeLastFinal b) (computeLastFinal s.tip) = true) then
      { s with safety_violations := insert (b, s.tip) s.safety_violations }
    else s
  else if tupGe (lengthOf s.tip, epochOf s.tip) (lengthOf b, epochOf b) then s
  else { s with tip := b }

section UniqueModel

/--
`Unique.__eq__` from `simtfl/util.py` is literally `return self == other`,
which re-invokes the same comparison on the same arguments. We model one stack
frame as consuming one unit of fuel; the result of evaluating `u == v` with a
finite stack is modelled by this function, `none` meaning the evaluation did
not complete (in CPython, a `RecursionError`).
-/
def uniqueEqFuel : Nat → Nat → Nat → Option Bool
  | 0, _, _ => none
  | fuel + 1, selfId, otherId => uniqueEqFuel fuel selfId otherId

/-- `Unique.__hash__` from `simtfl/util.py`: `id(self)`. -/
def uniqueHash (selfId : Nat) : Nat := selfId

end UniqueModel

/--
A transparent output (`BCTransaction._TXO` from `simtfl/bc/chain.py`): a frozen
dataclass of the creating transaction (compared by identity, here `txId`), the
output index, and the value.
-/
structure TXO where
  txId : Nat
  index : Nat
  value : Int
deriving DecidableEq

/--
A shielded note (`BCTransaction._Note`): a `Unique` value with a value field.
Its Python identity is modelled by the creating transaction's `txId` and the
output index at which it was freshly allocated.
-/
structure Note where
  txId : Nat
  index : Nat
  value : Int
deriving DecidableEq

/-- `Spentness` from `simtfl/bc/chain.py`. -/
inductive Spentness where
  | Unspent
  | Spent
deriving DecidableEq

/-- The insertion-ordered `notes` dict of a `BCContext`, as an association list. -/
abbrev NotesMap := List (Note × Spentness)

/-- Dict lookup `notes.get(note)` on the insertion-ordered notes map. -/
def lookupNotes : NotesMap → Note → Option Spentness
  | [], _ => none
  | (k, s) :: rest, n => if k = n then some s else lookupNotes rest n

/--
Dict assignment `notes[note] = v`: update in place when the key is present
(preserving its insertion-order position), append otherwise.
-/
def dictSet (m : NotesMap) (k : Note) (v : Spentness) : NotesMap :=
  if m.any (fun p => p.1 = k) then
    m.map (fun p => if p.1 = k then (k, v) else p)
  else m ++ [(k, v)]

/-- The loop `for note in tx.shielded_inputs: self.notes[note] = Spentness.Spent`. -/
def spendAllNotes (m : NotesMap) : List Note → NotesMap
  | [] => m
  | n :: rest => spendAllNotes (dictSet m n Spentness.Spent) rest

/--
The loop `for note in tx.shielded_outputs: assert note not in self.notes;
self.notes[note] = Spentness.Unspent`. `none` models the assertion failing.
-/
def addOutputNotes (m : NotesMap) : List Note → Option NotesMap
  | [] => some m
  | n :: rest =>
      if m.any (fun p => p.1 = n) then none
      else addOutputNotes (m ++ [(n, Spentness.Unspent)]) rest

/-- `BCContext.can_spend` applied to a notes map: all notes map to `Unspent`. -/
def canSpendNotes (m : NotesMap) (tospend : List Note) : Bool :=
  tospend.all (fun n => lookupNotes m n == some Spentness.Unspent)

/--
A `BCTransaction` from `simtfl/bc/chain.py`. `txId` models the transaction
object's identity (Python `BCTransaction` has no `__eq__`). The anchor is the
notes map of the snapshot context (the only part the constructor reads).
-/
structure BCTransaction where
  txId : Nat
  transparent_inputs : List TXO
  transparent_output_values : List Int
  shielded_inputs : List Note
  shielded_output_values : List Int
  fee : Int
  anchor : Option NotesMap
  issuance : Int
deriving DecidableEq

/-- The TXOs `[TXO(self, i, v) for (i, v) in enumerate(values)]`, from index `i0`. -/
def mkTXOs (txId : Nat) : Nat → List Int → List TXO
  | _, [] => []
  | i, v :: rest => ⟨txId, i, v⟩ :: mkTXOs txId (i + 1) rest

/-- The fresh notes `[Note(v) for v in values]`, identified by creating tx and index. -/
def mkNotes (txId : Nat) : Nat → List Int → List Note
  | _, [] => []
  | i, v :: rest => ⟨txId, i, v⟩ :: mkNotes txId (i + 1) rest

namespace BCTransaction

/-- The `transparent_outputs` attribute built by the constructor. -/
def transparent_outputs (tx : BCTransaction) : List TXO :=
  mkTXOs tx.txId 0 tx.transparent_output_values

/-- The `shielded_outputs` attribute built by the constructor. -/
def shielded_outputs (tx : BCTransaction) : List Note :=
  mkNotes tx.txId 0 tx.shielded_output_values

/-- `BCTransaction.is_coinbase`: no transparent and no shielded inputs. -/
def is_coinbase (tx : BCTransaction) : Bool :=
  tx.transparent_inputs.length + tx.shielded_inputs.length == 0

/--
The assertions of the `BCTransaction` constructor: such a transaction could
actually have been constructed.
-/
structure WellFormed (tx : BCTransaction) : Prop where
  issuance_nonneg : 0 ≤ tx.issuance
  fee_nonneg : 0 ≤ tx.fee ∨ tx.is_coinbase = true
  issuance_coinbase : tx.issuance = 0 ∨ tx.is_coinbase = true
  outputs_nonneg : ∀ v ∈ tx.transparent_output_values ++ tx.shielded_output_values, 0 ≤ v
  balance : (tx.transparent_inputs.map TXO.value).sum
      + (tx.shielded_inputs.map Note.value).sum + tx.issuance
      = tx.transparent_output_values.sum + tx.shielded_output_values.sum + tx.fee
  anchor_none : tx.shielded_inputs = [] → tx.anchor = none
  anchor_some : tx.shielded_inputs ≠ [] →
      ∃ m, tx.anchor = some m ∧ canSpendNotes m tx.shielded_inputs = true

end BCTransaction

/-- A `BCContext` from `simtfl/bc/chain.py`: transaction log, UTXO set,
insertion-ordered notes map, and running total issuance. -/
structure BCContext where
  transactions : List BCTransaction
  utxo_set : Finset TXO
  notes : NotesMap
  total_issuance : Int
deriving DecidableEq

namespace BCContext

/-- The empty context built by the `BCContext` constructor. -/
def empty : BCContext := ⟨[], ∅, [], 0⟩

/-- `BCContext.can_spend`. -/
def can_spend (ctx : BCContext) (tospend : List Note) : Bool :=
  canSpendNotes ctx.notes tospend

/--
`BCContext._check` / `BCContext.is_valid`: every transparent input (as a set)
is in the UTXO set, and every shielded input can be spent.
-/
def is_valid (ctx : BCContext) (tx : BCTransaction) : Bool :=
  decide (tx.transparent_inputs.toFinset ⊆ ctx.utxo_set) &&
    ctx.can_spend tx.shielded_inputs

/--
`BCContext.add_if_valid`: if `tx` is valid, remove the consumed UTXOs, insert
the new transparent outputs, mark shielded inputs `Spent`, append shielded
outputs as `Unspent` (asserting freshness: `none` models the assertion
failing), add the issuance and append to the log, returning `True`; otherwise
return `False` with the context unchanged.
-/
def add_if_valid (ctx : BCContext) (tx : BCTransaction) : Option (Bool × BCContext) :=
  if ctx.is_valid tx then
    match addOutputNotes (spendAllNotes ctx.notes tx.shielded_inputs) tx.shielded_outputs with
    | none => none
    | some m =>
        some (true,
          { transactions := ctx.transactions ++ [tx]
            utxo_set := (ctx.utxo_set \ tx.transparent_inputs.toFinset) ∪
              tx.transparent_outputs.toFinset
            notes := m
            total_issuance := ctx.total_issuance + tx.issuance })
  else some (false, ctx)

end BCContext

/--
Run a sequence of `add_if_valid` calls, requiring each to succeed (return
`True` without an assertion failure).
-/
def applyAll (ctx : BCContext) : List BCTransaction → Option BCContext
  | [] => some ctx
  | tx :: rest =>
      match ctx.add_if_valid tx with
      | some (true, ctx') => applyAll ctx' rest
      | _ => none

/-- The sum of the values of the TXOs in the UTXO set. -/
def utxoValue (ctx : BCContext) : Int := Finset.sum ctx.utxo_set TXO.value

/-- The sum of the values of the notes mapped to `Unspent`. -/
def unspentValueM : NotesMap → Int
  | [] => 0
  | (n, s) :: rest =>
      (if s = Spentness.Unspent then n.value else 0) + unspentValueM rest

/-- The sum of the values of the notes mapped to `Unspent` in a context. -/
def unspentValue (ctx : BCContext) : Int := unspentValueM ctx.notes

/--
C6: `Unique.__eq__` is `return self == other`, which re-invokes the same
comparison on the same arguments, so evaluating `u == u` (or `u == v`) never
terminates, whatever the stack budget: with any amount of fuel the evaluation
fails to produce a boolean. In CPython this surfaces as a `RecursionError`,
contradicting the claim (and the class's documented behaviour) that `u == u`
terminates and returns `True`.
-/
theorem unique_eq_never_terminates (fuel selfId otherId : Nat) :
    uniqueEqFuel fuel selfId otherId = none := by
  induction fuel with
  | zero => rfl
  | succ n ih => exact ih

/--
C4: if some transparent input of `tx` is not in the UTXO set, or some shielded
input of `tx` is not mapped to `Unspent` in the notes map, then `add_if_valid`
returns `False` and leaves the context (all four components) exactly unchanged.
-/
theorem add_if_valid_failure_unchanged (ctx : BCContext) (tx : BCTransaction)
    (h : (∃ txo ∈ tx.transparent_inputs, txo ∉ ctx.utxo_set) ∨
         (∃ n ∈ tx.shielded_inputs, lookupNotes ctx.notes n ≠ some Spentness.Unspent)) :
    ctx.add_if_valid tx = some (false, ctx) := by
  have hv : ctx.is_valid tx = false := by
    rcases h with ⟨x, hx, hnx⟩ | ⟨n, hn, hnn⟩
    · have hns : ¬ (tx.transparent_inputs.toFinset ⊆ ctx.utxo_set) := by
        intro hsub
        exact hnx (hsub (List.mem_toFinset.mpr hx))
      simp [BCContext.is_valid, hns]
    · cases hcs : ctx.can_spend tx.shielded_inputs with
      | false => simp [BCContext.is_valid, hcs]
      | true =>
        exfalso
        unfold BCContext.can_spend canSpendNotes at hcs
        have := List.all_eq_true.mp hcs n hn
        exact hnn (by simpa using this)
  simp [BCContext.add_if_valid, hv]

/-- Witness for C4 at a concrete input: a transaction spending a TXO absent
from the empty context is rejected and the context is returned unchanged. -/
theorem add_if_valid_failure_unchanged_witness :
    BCContext.empty.add_if_valid ⟨0, [⟨5, 0, 3⟩], [], [], [], 0, none, 0⟩ =
      some (false, BCContext.empty) :=
  add_if_valid_failure_unchanged BCContext.empty ⟨0, [⟨5, 0, 3⟩], [], [], [], 0, none, 0⟩
    (Or.inl ⟨⟨5, 0, 3⟩, by decide, by decide⟩)

/--
C10: every `StreamletProposal` is valid (the no-op `assert_valid` is
inherited), so `is_notarized` holds exactly when the number of recorded
distinct voters reaches the threshold `t`, and notarization is monotone under
further (successful) `add_vote` calls.
-/
theorem proposal_validity_notarization (p p' : StreamletProposal) (i : Nat) :
    p.is_valid = true ∧
    (p.is_notarized = true ↔ p.t ≤ p.votes.card) ∧
    (p.is_notarized = true → p.add_vote i = some p' → p'.is_notarized = true) := by
  refine ⟨rfl, by simp [StreamletProposal.is_notarized, StreamletProposal.is_valid], ?_⟩
  intro hn hv
  have h1 : p.t ≤ p.votes.card := by
    simpa [StreamletProposal.is_notarized, StreamletProposal.is_valid] using hn
  unfold StreamletProposal.add_vote at hv
  by_cases hc : (insert i p.votes).card ≤ p.n
  · rw [if_pos hc] at hv
    cases hv
    have h2 : p.votes.card ≤ (insert i p.votes).card :=
      Finset.card_le_card (Finset.subset_insert i p.votes)
    simp only [StreamletProposal.is_notarized, StreamletProposal.is_valid, Bool.true_and,
      decide_eq_true_eq]
    omega
  · rw [if_neg hc] at hv
    cases hv

/-- Witness for C10 at a concrete input: a proposal on `StreamletGenesis(3)`
with votes `{0, 1}` is notarized, and stays notarized after voter 2 is added. -/
theorem proposal_validity_notarization_witness :
    StreamletProposal.is_notarized
      ⟨0, 3, 2, streamletGenesis 3, 1, insert 2 ({0, 1} : Finset Nat)⟩ = true :=
  (proposal_validity_notarization ⟨0, 3, 2, streamletGenesis 3, 1, {0, 1}⟩
      ⟨0, 3, 2, streamletGenesis 3, 1, insert 2 ({0, 1} : Finset Nat)⟩ 2).2.2
    (by decide) (by rfl)

/--
The spec's last-final rule as a search over the explicit window list, amended
to match the code: the walk only tests the consecutive-epoch condition on
windows whose first element is a non-genesis block (the code returns genesis
as soon as `first.parent is None`, before testing the window); the result is
the middle of the latest (closest to `b`) window passing that test, and the
genesis block when none does.
-/
def lastFinalSpec (b : Chain) : Chain :=
  match (windows b).find? (fun w => w.1.isBlock && consecWindow w) with
  | some w => w.2.1
  | none => Chain.root b

theorem lastFinalLoop_eq_find (first : Chain) : ∀ middle lst : Chain,
    lastFinalLoop first middle lst =
      (match (windowsW first middle lst).find? (fun w => w.1.isBlock && consecWindow w) with
       | some w => w.2.1
       | none => Chain.root first) := by
  induction first with
  | genesis n t =>
    intro middle lst
    simp [lastFinalLoop, windowsW, List.find?, Chain.isBlock, Chain.root]
  | block pid p e ih =>
    intro middle lst
    have hstep : lastFinalLoop (Chain.block pid p e) middle lst =
        (if Chain.epochOf (Chain.block pid p e) + 1 = Chain.epochOf middle ∧
            Chain.epochOf middle + 1 = Chain.epochOf lst then middle
         else lastFinalLoop p (Chain.block pid p e) middle) := rfl
    by_cases h : Chain.epochOf (Chain.block pid p e) + 1 = Chain.epochOf middle ∧
        Chain.epochOf middle + 1 = Chain.epochOf lst
    · have e2 : List.find? (fun w => w.1.isBlock && consecWindow w)
          ((Chain.block pid p e, middle, lst) :: windowsW p (Chain.block pid p e) middle)
          = some (Chain.block pid p e, middle, lst) := by
        simp [List.find?, consecWindow, Chain.isBlock, h.1, h.2]
      rw [hstep, if_pos h, windowsW, e2]
    · have e2 : List.find? (fun w => w.1.isBlock && consecWindow w)
          ((Chain.block pid p e, middle, lst) :: windowsW p (Chain.block pid p e) middle)
          = List.find? (fun w => w.1.isBlock && consecWindow w)
              (windowsW p (Chain.block pid p e) middle) := by
        have hp : consecWindow (Chain.block pid p e, middle, lst) = false := by
          simp only [consecWindow, Bool.and_eq_false_iff, beq_eq_false_iff_ne, ne_eq]
          by_cases h1 : Chain.epochOf (Chain.block pid p e) + 1 = Chain.epochOf middle
          · exact Or.inr (fun h2 => h ⟨h1, h2⟩)
          · exact Or.inl h1
        simp [List.find?, hp, Chain.isBlock]
      rw [hstep, if_neg h, windowsW, e2, ih (Chain.block pid p e) middle]
      cases hf : List.find? (fun w => w.1.isBlock && consecWindow w)
          (windowsW p (Chain.block pid p e) middle) with
      | none => simp [Chain.root]
      | some w => simp

/--
C2 (amended): for every chain `b`, the cached `last_final` equals the
spec-level rule amended so that windows whose first element is genesis are not
tested: it is the middle of the latest window in the ancestor walk whose first
element is a non-genesis block and whose epochs are consecutive, and the
genesis block if no such window exists.
-/
theorem last_final_matches_amended_spec (b : Chain) : computeLastFinal b = lastFinalSpec b := by
  match b with
  | Chain.genesis n t => rfl
  | Chain.block pid (Chain.genesis n t) e => rfl
  | Chain.block pid (Chain.block pid' pp e') e =>
    show lastFinalLoop pp (Chain.block pid' pp e')
        (Chain.block pid (Chain.block pid' pp e') e) = _
    rw [lastFinalLoop_eq_find]
    rfl

/--
C2 as stated is refuted: in the three-chain with epochs 0 — 1 — 2 on
`StreamletGenesis(3)`, the window `(genesis, block 1, block 2)` is in the walk
of the epoch-2 block and satisfies `first.epoch + 1 == middle.epoch` and
`middle.epoch + 1 == last.epoch`, yet the epoch-2 block's `last_final` is the
genesis block and not the middle of that window (the code returns genesis as
soon as the window's first element has no parent, without testing the
condition).
-/
theorem last_final_genesis_window_refuted :
    (streamletGenesis 3, Chain.block 1 (streamletGenesis 3) 1,
        Chain.block 2 (Chain.block 1 (streamletGenesis 3) 1) 2) ∈
      windows (Chain.block 2 (Chain.block 1 (streamletGenesis 3) 1) 2) ∧
    consecWindow (streamletGenesis 3, Chain.block 1 (streamletGenesis 3) 1,
        Chain.block 2 (Chain.block 1 (streamletGenesis 3) 1) 2) = true ∧
    computeLastFinal (Chain.block 2 (Chain.block 1 (streamletGenesis 3) 1) 2) =
      streamletGenesis 3 ∧
    Chain.block 1 (streamletGenesis 3) 1 ≠ streamletGenesis 3 := by decide

/--
Build one step of the S3 scenario: a proposal with the given identity, parent
and epoch, two distinct votes (voters 0 and 1), then a block (each step
returning `none` if any constructor assertion would fail).
-/
def s3Block (pid : Nat) (parent : Chain) (e : Nat) : Option Chain :=
  (mkStreamletProposal pid parent e).bind (fun p =>
    (p.add_vote 0).bind (fun p1 =>
      (p1.add_vote 1).bind mkStreamletBlock))

/--
C3: the straight-line scenario on `StreamletGenesis(3)`: proposals at epochs
1, 2, 3 on the blocks at epochs 0, 1, 2, each notarized with two distinct
votes and wrapped in a block; the epoch-1 and epoch-2 blocks' `last_final` is
genesis and the epoch-3 block's `last_final` is the epoch-2 block.
-/
theorem streamlet_straight_line :
    s3Block 1 (streamletGenesis 3) 1 = some (Chain.block 1 (streamletGenesis 3) 1) ∧
    s3Block 2 (Chain.block 1 (streamletGenesis 3) 1) 2 =
      some (Chain.block 2 (Chain.block 1 (streamletGenesis 3) 1) 2) ∧
    s3Block 3 (Chain.block 2 (Chain.block 1 (streamletGenesis 3) 1) 2) 3 =
      some (Chain.block 3 (Chain.block 2 (Chain.block 1 (streamletGenesis 3) 1) 2) 3) ∧
    computeLastFinal (Chain.block 1 (streamletGenesis 3) 1) = streamletGenesis 3 ∧
    computeLastFinal (Chain.block 2 (Chain.block 1 (streamletGenesis 3) 1) 2) =
      streamletGenesis 3 ∧
    computeLastFinal (Chain.block 3 (Chain.block 2 (Chain.block 1 (streamletGenesis 3) 1) 2) 3) =
      Chain.block 2 (Chain.block 1 (streamletGenesis 3) 1) 2 := by
  decide

theorem tupGe_eq_false_iff (a c : Nat × Nat) :
    tupGe a c = false ↔ (a.1 < c.1 ∨ (a.1 = c.1 ∧ a.2 < c.2)) := by
  simp only [tupGe, Bool.or_eq_false_iff, Bool.and_eq_false_iff, decide_eq_false_iff_not,
    not_lt, beq_eq_false_iff_ne, ne_eq]
  omega

/--
C7: `handle_block` never touches the genesis reference, `voted_epoch` or the
in-flight proposal; when the node's `tip.last_final` does not precede the
incoming block's `last_final` the tip is unchanged and `(b, tip)` is recorded
as a safety violation exactly when the two last-finals are mutually
non-ancestral; otherwise the safety-violation set is unchanged and the tip is
replaced by `b` if and only if `(b.length, b.epoch)` is lexicographically
strictly greater than `(tip.length, tip.epoch)`.
-/
theorem handle_block_spec (s : NodeState) (b : Chain) :
    ((handle_block s b).genesisB = s.genesisB ∧
     (handle_block s b).voted_epoch = s.voted_epoch ∧
     (handle_block s b).proposal = s.proposal) ∧
    (preceq (computeLastFinal s.tip) (computeLastFinal b) = false →
      (handle_block s b).tip = s.tip ∧
      (preceq (computeLastFinal b) (computeLastFinal s.tip) = false →
        (handle_block s b).safety_violations = insert (b, s.tip) s.safety_violations) ∧
      (preceq (computeLastFinal b) (computeLastFinal s.tip) = true →
        (handle_block s b).safety_violations = s.safety_violations)) ∧
    (preceq (computeLastFinal s.tip) (computeLastFinal b) = true →
      (handle_block s b).safety_violations = s.safety_violations ∧
      ((Chain.lengthOf s.tip < Chain.lengthOf b ∨
          (Chain.lengthOf s.tip = Chain.lengthOf b ∧ Chain.epochOf s.tip < Chain.epochOf b)) →
        (handle_block s b).tip = b) ∧
      (¬ (Chain.lengthOf s.tip < Chain.lengthOf b ∨
          (Chain.lengthOf s.tip = Chain.lengthOf b ∧ Chain.epochOf s.tip < Chain.epochOf b)) →
        (handle_block s b).tip = s.tip)) := by
  unfold handle_block
  by_cases h1 : preceq (computeLastFinal s.tip) (computeLastFinal b) = true
  · rw [if_neg (not_not_intro h1)]
    by_cases h2 : tupGe (Chain.lengthOf s.tip, Chain.epochOf s.tip)
        (Chain.lengthOf b, Chain.epochOf b) = true
    · rw [if_pos h2]
      refine ⟨⟨rfl, rfl, rfl⟩, ?_, ?_⟩
      · intro hc; exact absurd h1 (by simp [hc])
      · intro _
        refine ⟨rfl, ?_, fun _ => rfl⟩
        intro hlex
        have hf : tupGe (Chain.lengthOf s.tip, Chain.epochOf s.tip)
            (Chain.lengthOf b, Chain.epochOf b) = false :=
          (tupGe_eq_false_iff _ _).mpr hlex
        simp [hf] at h2
    · rw [if_neg h2]
      refine ⟨⟨rfl, rfl, rfl⟩, ?_, ?_⟩
      · intro hc; exact absurd h1 (by simp [hc])
      · intro _
        refine ⟨rfl, fun _ => rfl, ?_⟩
        intro hnlex
        have hf : tupGe (Chain.lengthOf s.tip, Chain.epochOf s.tip)
            (Chain.lengthOf b, Chain.epochOf b) = false := by
          cases hv : tupGe (Chain.lengthOf s.tip, Chain.epochOf s.tip)
              (Chain.lengthOf b, Chain.epochOf b) with
          | false => rfl
          | true => exact absurd hv h2
        exact absurd ((tupGe_eq_false_iff _ _).mp hf) hnlex
  · rw [if_pos h1]
    by_cases h2 : preceq (computeLastFinal b) (computeLastFinal s.tip) = true
    · rw [if_neg (not_not_intro h2)]
      refine ⟨⟨rfl, rfl, rfl⟩, ?_, ?_⟩
      · intro _
        exact ⟨rfl, fun hc => absurd h2 (by simp [hc]), fun _ => rfl⟩
      · intro hc; exact absurd hc h1
    · rw [if_pos h2]
      refine ⟨⟨rfl, rfl, rfl⟩, ?_, ?_⟩
      · intro _
        refine ⟨rfl, fun _ => rfl, ?_⟩
        intro hc
        simp [hc] at h2
      · intro hc; exact absurd hc h1

/--
Witness for C7 at concrete inputs: on a tip at genesis, a notarizable epoch-1
block becomes the new tip; and a block whose `last_final` diverges from the
tip's `last_final` is recorded as a safety violation.
-/
theorem handle_block_spec_witness :
    (handle_block ⟨streamletGenesis 3, 0, streamletGenesis 3, none, ∅⟩
        (Chain.block 1 (streamletGenesis 3) 1)).tip = Chain.block 1 (streamletGenesis 3) 1 ∧
    (handle_block
        ⟨streamletGenesis 3, 0,
          Chain.block 3 (Chain.block 2 (Chain.block 1 (streamletGenesis 3) 1) 2) 3, none, ∅⟩
        (Chain.block 6 (Chain.block 5 (Chain.block 4 (streamletGenesis 3) 4) 5) 6)).safety_violations =
      insert
        (Chain.block 6 (Chain.block 5 (Chain.block 4 (streamletGenesis 3) 4) 5) 6,
          Chain.block 3 (Chain.block 2 (Chain.block 1 (streamletGenesis 3) 1) 2) 3)
        (∅ : Finset (Chain × Chain)) :=
  ⟨((handle_block_spec ⟨streamletGenesis 3, 0, streamletGenesis 3, none, ∅⟩
        (Chain.block 1 (streamletGenesis 3) 1)).2.2 (by decide)).2.1 (Or.inl (by decide)),
   (((handle_block_spec
        ⟨streamletGenesis 3, 0,
          Chain.block 3 (Chain.block 2 (Chain.block 1 (streamletGenesis 3) 1) 2) 3, none, ∅⟩
        (Chain.block 6 (Chain.block 5 (Chain.block 4 (streamletGenesis 3) 4) 5) 6)).2.1
      (by decide)).2.1 (by decide))⟩

theorem constructed_epoch_gt (p : StreamletProposal) (h : ConstructedProposal p) :
    Chain.epochOf p.parent < p.epoch := by
  induction h with
  | mk pid parent epoch p hmk =>
    unfold mkStreamletProposal at hmk
    by_cases hc : Chain.epochOf parent < epoch
    · rw [if_pos hc] at hmk
      cases hmk
      exact hc
    · rw [if_neg hc] at hmk
      cases hmk
  | vote p p' index hp hv ih =>
    unfold StreamletProposal.add_vote at hv
    by_cases hc : (insert index p.votes).card ≤ p.n
    · rw [if_pos hc] at hv
      cases hv
      exact ih
    · rw [if_neg hc] at hv
      cases hv

theorem ancestors_head (c : Chain) : (Chain.ancestors c).head? = some c := by
  cases c <;> rfl

/--
C8: constructing a `StreamletProposal` with an epoch at most its parent's
fails fast (returns no proposal); every constructed proposal satisfies
`p.epoch > p.parent.epoch`; and along the parent chain of any honestly built
block the epochs strictly decrease from the block toward genesis.
-/
theorem epoch_monotonicity (parent : Chain) (e : Nat) (c : Chain) :
    (e ≤ Chain.epochOf parent → ∀ pid, mkStreamletProposal pid parent e = none) ∧
    (∀ pid p, mkStreamletProposal pid parent e = some p → Chain.epochOf p.parent < p.epoch) ∧
    (BuiltChain c →
      List.Chain' (fun x y => y < x) ((Chain.ancestors c).map Chain.epochOf)) := by
  refine ⟨?_, ?_, ?_⟩
  · intro hle pid
    unfold mkStreamletProposal
    rw [if_neg (by omega)]
  · intro pid p hmk
    unfold mkStreamletProposal at hmk
    by_cases hc : Chain.epochOf parent < e
    · rw [if_pos hc] at hmk
      cases hmk
      exact hc
    · rw [if_neg hc] at hmk
      cases hmk
  · intro hb
    induction hb with
    | genesis n => simp [streamletGenesis, Chain.ancestors]
    | block p b hparent hp hbl ih =>
      have hbeq : b = Chain.block p.pid p.parent p.epoch := by
        unfold mkStreamletBlock at hbl
        by_cases hn : p.is_notarized = true
        · rw [if_pos hn] at hbl
          cases hbl
          rfl
        · rw [if_neg hn] at hbl
          cases hbl
      rw [hbeq, Chain.ancestors, List.map_cons, List.chain'_cons']
      refine ⟨?_, ih⟩
      intro x hx
      rw [List.head?_map, ancestors_head, Option.map_some'] at hx
      injection hx with hx
      subst hx
      exact constructed_epoch_gt p hp

/--
Witness for C8 at concrete inputs: a proposal at epoch 0 on
`StreamletGenesis(3)` is refused; a proposal at epoch 1 satisfies the epoch
bound; and a fully constructed epoch-1 block has strictly decreasing epochs
along its ancestor chain.
-/
theorem epoch_monotonicity_witness :
    mkStreamletProposal 7 (streamletGenesis 3) 0 = none ∧
    Chain.epochOf (streamletGenesis 3) < 1 ∧
    List.Chain' (fun x y => y < x)
      ((Chain.ancestors (Chain.block 1 (streamletGenesis 3) 1)).map Chain.epochOf) :=
  ⟨(epoch_monotonicity (streamletGenesis 3) 0 (streamletGenesis 3)).1 (by decide) 7,
   (epoch_monotonicity (streamletGenesis 3) 1 (streamletGenesis 3)).2.1 1
     ⟨1, 3, 2, streamletGenesis 3, 1, ∅⟩ rfl,
   (epoch_monotonicity (streamletGenesis 3) 1 (Chain.block 1 (streamletGenesis 3) 1)).2.2
     (BuiltChain.block ⟨1, 3, 2, streamletGenesis 3, 1, insert 1 (insert 0 ∅)⟩
       (Chain.block 1 (streamletGenesis 3) 1) (BuiltChain.genesis 3)
       (ConstructedProposal.vote ⟨1, 3, 2, streamletGenesis 3, 1, insert 0 ∅⟩
         ⟨1, 3, 2, streamletGenesis 3, 1, insert 1 (insert 0 ∅)⟩ 1
         (ConstructedProposal.vote ⟨1, 3, 2, streamletGenesis 3, 1, ∅⟩
           ⟨1, 3, 2, streamletGenesis 3, 1, insert 0 ∅⟩ 0
           (ConstructedProposal.mk 1 (streamletGenesis 3) 1
             ⟨1, 3, 2, streamletGenesis 3, 1, ∅⟩ rfl) rfl) rfl) rfl)⟩

/--
Identity coherence for a collection of chain elements: the embedded equality
(`__eq__`, which compares proposals by object identity) agrees with structural
identity on them. This holds for any family of blocks actually constructed in
a run, since distinct proposal objects are distinct identities.
-/
def PidCoherent (l : List Chain) : Prop :=
  ∀ x ∈ l, ∀ y ∈ l, Chain.beq x y = true → x = y

theorem chain_beq_refl (a : Chain) : Chain.beq a a = true := by
  cases a <;> simp [Chain.beq]

theorem chain_preceq_refl (a : Chain) : preceq a a = true := by
  cases a with
  | genesis n t => simp [preceq, Chain.beq]
  | block pid p e => simp [preceq, chain_beq_refl]

theorem mem_ancestors_length_le (a : Chain) : ∀ b, a ∈ Chain.ancestors b →
    Chain.lengthOf a ≤ Chain.lengthOf b := by
  intro b
  induction b with
  | genesis n t =>
    intro h
    simp only [Chain.ancestors, List.mem_singleton] at h
    subst h
    exact le_refl _
  | block pid p e ih =>
    intro h
    rw [Chain.ancestors] at h
    rcases List.mem_cons.mp h with h | h
    · subst h
      exact le_refl _
    · have hle := ih h
      rw [Chain.lengthOf]
      omega

theorem preceq_of_mem_ancestors (a : Chain) : ∀ b, a ∈ Chain.ancestors b →
    preceq a b = true := by
  intro b
  induction b with
  | genesis n t =>
    intro h
    simp only [Chain.ancestors, List.mem_singleton] at h
    subst h
    exact chain_preceq_refl _
  | block pid p e ih =>
    intro h
    rw [Chain.ancestors] at h
    rcases List.mem_cons.mp h with h | h
    · subst h
      exact chain_preceq_refl _
    · have hle : Chain.lengthOf a ≤ Chain.lengthOf p := mem_ancestors_length_le a p h
      have hr : preceq a p = true := ih h
      simp only [preceq]
      rw [if_neg (by rw [Chain.lengthOf]; omega)]
      simp [hr]

theorem mem_ancestors_of_preceq (a : Chain) : ∀ b, PidCoherent (a :: Chain.ancestors b) →
    preceq a b = true → a ∈ Chain.ancestors b := by
  intro b
  induction b with
  | genesis n t =>
    intro hcoh hp
    simp only [preceq] at hp
    by_cases hlen : Chain.lengthOf a > Chain.lengthOf (Chain.genesis n t)
    · rw [if_pos hlen] at hp
      cases hp
    · rw [if_neg hlen] at hp
      have ha : a = Chain.genesis n t :=
        hcoh a (List.mem_cons_self _ _) (Chain.genesis n t)
          (List.mem_cons.mpr (Or.inr (List.mem_singleton.mpr rfl))) hp
      subst ha
      simp [Chain.ancestors]
  | block pid p e ih =>
    intro hcoh hp
    simp only [preceq] at hp
    by_cases hlen : Chain.lengthOf a > Chain.lengthOf (Chain.block pid p e)
    · rw [if_pos hlen] at hp
      cases hp
    · rw [if_neg hlen] at hp
      rcases Bool.or_eq_true_iff.mp hp with hq | hq
      · have ha : a = Chain.block pid p e :=
          hcoh a (List.mem_cons_self _ _) (Chain.block pid p e)
            (List.mem_cons.mpr (Or.inr (by
              rw [Chain.ancestors]; exact List.mem_cons_self _ _))) hq
        subst ha
        rw [Chain.ancestors]
        exact List.mem_cons_self _ _
      · have hsub : ∀ x, x ∈ a :: Chain.ancestors p →
            x ∈ a :: Chain.ancestors (Chain.block pid p e) := by
          intro x hx
          rcases List.mem_cons.mp hx with h | h
          · exact List.mem_cons.mpr (Or.inl h)
          · refine List.mem_cons.mpr (Or.inr ?_)
            rw [Chain.ancestors]
            exact List.mem_cons.mpr (Or.inr h)
        have := ih (fun x hx y hy hq' => hcoh x (hsub x hx) y (hsub y hy) hq') hq
        rw [Chain.ancestors]
        exact List.mem_cons.mpr (Or.inr this)

theorem ancestors_trans (a : Chain) : ∀ b, a ∈ Chain.ancestors b →
    ∀ x ∈ Chain.ancestors a, x ∈ Chain.ancestors b := by
  intro b
  induction b with
  | genesis n t =>
    intro h x hx
    simp only [Chain.ancestors, List.mem_singleton] at h
    subst h
    exact hx
  | block pid p e ih =>
    intro h x hx
    rw [Chain.ancestors] at h
    rcases List.mem_cons.mp h with h | h
    · subst h
      exact hx
    · rw [Chain.ancestors]
      exact List.mem_cons.mpr (Or.inr (ih h x hx))

/--
C9: `preceq` is reflexive, and transitive on any family of blocks whose
embedded equality is faithful to object identity (`PidCoherent`), which is the
case for blocks reachable by parent links from constructed chains, where
distinct proposal objects have distinct identities.
-/
theorem preceq_refl_trans (a b c : Chain) :
    preceq a a = true ∧
    (PidCoherent (Chain.ancestors a ++ Chain.ancestors b ++ Chain.ancestors c) →
      preceq a b = true → preceq b c = true → preceq a c = true) := by
  refine ⟨chain_preceq_refl a, ?_⟩
  intro hcoh hab hbc
  have self_mem : ∀ x : Chain, x ∈ Chain.ancestors x := by
    intro x
    cases x with
    | genesis n t => simp [Chain.ancestors]
    | block pid p e =>
      rw [Chain.ancestors]
      exact List.mem_cons_self _ _
  have hin1 : ∀ x, x ∈ a :: Chain.ancestors b →
      x ∈ Chain.ancestors a ++ Chain.ancestors b ++ Chain.ancestors c := by
    intro x hx
    rcases List.mem_cons.mp hx with h | h
    · subst h
      exact List.mem_append.mpr (Or.inl (List.mem_append.mpr (Or.inl (self_mem x))))
    · exact List.mem_append.mpr (Or.inl (List.mem_append.mpr (Or.inr h)))
  have hin2 : ∀ x, x ∈ b :: Chain.ancestors c →
      x ∈ Chain.ancestors a ++ Chain.ancestors b ++ Chain.ancestors c := by
    intro x hx
    rcases List.mem_cons.mp hx with h | h
    · subst h
      exact List.mem_append.mpr (Or.inl (List.mem_append.mpr (Or.inr (self_mem x))))
    · exact List.mem_append.mpr (Or.inr h)
  have hmab : a ∈ Chain.ancestors b :=
    mem_ancestors_of_preceq a b (fun x hx y hy hq => hcoh x (hin1 x hx) y (hin1 y hy) hq) hab
  have hmbc : b ∈ Chain.ancestors c :=
    mem_ancestors_of_preceq b c (fun x hx y hy hq => hcoh x (hin2 x hx) y (hin2 y hy) hq) hbc
  exact preceq_of_mem_ancestors a c (ancestors_trans b c hmbc a hmab)

/--
Witness for C9 at a concrete input: genesis precedes the epoch-1 block which
precedes the epoch-2 block, and genesis precedes the epoch-2 block by
transitivity.
-/
theorem preceq_refl_trans_witness :
    preceq (streamletGenesis 3) (Chain.block 2 (Chain.block 1 (streamletGenesis 3) 1) 2) = true :=
  (preceq_refl_trans (streamletGenesis 3) (Chain.block 1 (streamletGenesis 3) 1)
      (Chain.block 2 (Chain.block 1 (streamletGenesis 3) 1) 2)).2
    (by unfold PidCoherent; decide) (by decide) (by decide)

theorem lookupNotes_append_left (m m' : NotesMap) (n : Note) (s : Spentness) :
    lookupNotes m n = some s → lookupNotes (m ++ m') n = some s := by
  induction m with
  | nil => intro h; cases h
  | cons p rest ih =>
    obtain ⟨k, sv⟩ := p
    intro h
    rw [List.cons_append]
    simp only [lookupNotes] at h ⊢
    by_cases hk : k = n
    · rw [if_pos hk] at h ⊢
      exact h
    · rw [if_neg hk] at h ⊢
      exact ih h

theorem lookupNotes_append_none (m m' : NotesMap) (n : Note) :
    lookupNotes m n = none → lookupNotes (m ++ m') n = lookupNotes m' n := by
  induction m with
  | nil => intro _; rfl
  | cons p rest ih =>
    obtain ⟨k, sv⟩ := p
    intro h
    rw [List.cons_append]
    simp only [lookupNotes] at h ⊢
    by_cases hk : k = n
    · rw [if_pos hk] at h
      cases h
    · rw [if_neg hk] at h ⊢
      exact ih h

theorem mem_keys_of_lookup (m : NotesMap) (n : Note) (s : Spentness) :
    lookupNotes m n = some s → n ∈ m.map Prod.fst := by
  induction m with
  | nil => intro h; cases h
  | cons p rest ih =>
    obtain ⟨k, sv⟩ := p
    intro h
    simp only [lookupNotes] at h
    rw [List.map_cons]
    by_cases hk : k = n
    · exact List.mem_cons.mpr (Or.inl hk.symm)
    · rw [if_neg hk] at h
      exact List.mem_cons.mpr (Or.inr (ih h))

theorem lookup_of_not_mem_keys (m : NotesMap) (n : Note) :
    n ∉ m.map Prod.fst → lookupNotes m n = none := by
  induction m with
  | nil => intro _; rfl
  | cons p rest ih =>
    obtain ⟨k, sv⟩ := p
    intro h
    rw [List.map_cons] at h
    simp only [lookupNotes]
    rw [if_neg (fun hk => h (List.mem_cons.mpr (Or.inl hk.symm)))]
    exact ih (fun hm => h (List.mem_cons.mpr (Or.inr hm)))

theorem any_key_eq_iff (m : NotesMap) (k : Note) :
    m.any (fun p => p.1 = k) = true ↔ k ∈ m.map Prod.fst := by
  constructor
  · intro h
    obtain ⟨p, hp, he⟩ := List.any_eq_true.mp h
    exact List.mem_map.mpr ⟨p, hp, of_decide_eq_true he⟩
  · intro h
    obtain ⟨p, hp, he⟩ := List.mem_map.mp h
    exact List.any_eq_true.mpr ⟨p, hp, decide_eq_true he⟩

theorem keys_map_set (m : NotesMap) (k : Note) (v : Spentness) :
    (m.map (fun p => if p.1 = k then (k, v) else p)).map Prod.fst = m.map Prod.fst := by
  induction m with
  | nil => rfl
  | cons p rest ih =>
    obtain ⟨k', s'⟩ := p
    by_cases hk : k' = k
    · subst hk
      simp [ih]
    · simp [show ¬ ((k', s').1 = k) from hk, ih]

theorem map_set_id (m : NotesMap) (k : Note) (v : Spentness) :
    k ∉ m.map Prod.fst → m.map (fun p => if p.1 = k then (k, v) else p) = m := by
  induction m with
  | nil => intro _; rfl
  | cons p rest ih =>
    obtain ⟨k', s'⟩ := p
    intro h
    rw [List.map_cons] at h
    rw [List.map_cons,
      if_neg (show ¬ ((k', s').1 = k) from fun hk => h (List.mem_cons.mpr (Or.inl hk.symm))),
      ih (fun hm => h (List.mem_cons.mpr (Or.inr hm)))]

theorem lookup_map_set_ne (m : NotesMap) (k j : Note) (v : Spentness) (hne : j ≠ k) :
    lookupNotes (m.map (fun p => if p.1 = k then (k, v) else p)) j = lookupNotes m j := by
  induction m with
  | nil => rfl
  | cons p rest ih =>
    obtain ⟨k', s'⟩ := p
    by_cases hk : k' = k
    · subst hk
      rw [List.map_cons, if_pos rfl]
      simp only [lookupNotes]
      rw [if_neg (fun h => hne h.symm), if_neg (fun h => hne h.symm)]
      exact ih
    · rw [List.map_cons, if_neg (show ¬ ((k', s').1 = k) from hk)]
      simp only [lookupNotes]
      by_cases hj : k' = j
      · rw [if_pos hj, if_pos hj]
      · rw [if_neg hj, if_neg hj]
        exact ih

theorem lookup_map_set_self (m : NotesMap) (k : Note) (v : Spentness) :
    k ∈ m.map Prod.fst →
    lookupNotes (m.map (fun p => if p.1 = k then (k, v) else p)) k = some v := by
  induction m with
  | nil => intro h; cases h
  | cons p rest ih =>
    obtain ⟨k', s'⟩ := p
    intro h
    by_cases hk : k' = k
    · subst hk
      rw [List.map_cons, if_pos rfl]
      simp [lookupNotes]
    · rw [List.map_cons, if_neg (show ¬ ((k', s').1 = k) from hk)]
      simp only [lookupNotes]
      rw [if_neg hk]
      rw [List.map_cons] at h
      exact ih (List.mem_cons.mp h |>.resolve_left (fun he => hk he.symm))

theorem lookup_dictSet_ne (m : NotesMap) (k j : Note) (v : Spentness) (hne : j ≠ k) :
    lookupNotes (dictSet m k v) j = lookupNotes m j := by
  unfold dictSet
  by_cases hmem : m.any (fun p => p.1 = k) = true
  · rw [if_pos hmem]
    exact lookup_map_set_ne m k j v hne
  · rw [if_neg hmem]
    by_cases hl : lookupNotes m j = none
    · rw [lookupNotes_append_none m _ j hl, hl]
      simp only [lookupNotes]
      rw [if_neg (fun h => hne h.symm)]
    · obtain ⟨s, hs⟩ := Option.ne_none_iff_exists'.mp hl
      rw [lookupNotes_append_left m _ j s hs, hs]

theorem lookup_dictSet_self (m : NotesMap) (k : Note) (v : Spentness) :
    lookupNotes (dictSet m k v) k = some v := by
  unfold dictSet
  by_cases hmem : m.any (fun p => p.1 = k) = true
  · rw [if_pos hmem]
    exact lookup_map_set_self m k v ((any_key_eq_iff m k).mp hmem)
  · rw [if_neg hmem]
    have hnone : lookupNotes m k = none := by
      apply lookup_of_not_mem_keys
      intro hm
      exact hmem ((any_key_eq_iff m k).mpr hm)
    rw [lookupNotes_append_none m _ k hnone]
    simp [lookupNotes]

theorem unspentValueM_append (a b : NotesMap) :
    unspentValueM (a ++ b) = unspentValueM a + unspentValueM b := by
  induction a with
  | nil => simp [unspentValueM]
  | cons p rest ih =>
    obtain ⟨n, s⟩ := p
    rw [List.cons_append]
    simp only [unspentValueM]
    rw [ih]
    ring

theorem unspentValueM_map_set_spent (m : NotesMap) (k : Note) :
    (m.map Prod.fst).Nodup → lookupNotes m k = some Spentness.Unspent →
    unspentValueM (m.map (fun p => if p.1 = k then (k, Spentness.Spent) else p))
      = unspentValueM m - k.value := by
  induction m with
  | nil => intro _ h; cases h
  | cons p rest ih =>
    obtain ⟨k', s'⟩ := p
    intro hnd h
    rw [List.map_cons] at hnd
    have hnd' := List.nodup_cons.mp hnd
    by_cases hk : k' = k
    · subst hk
      have hs : s' = Spentness.Unspent := by
        simp only [lookupNotes, if_pos rfl] at h
        injection h
      subst hs
      rw [List.map_cons, if_pos rfl, map_set_id rest k' _ hnd'.1]
      simp [unspentValueM]
    · have h' : lookupNotes rest k = some Spentness.Unspent := by
        simp only [lookupNotes] at h
        rw [if_neg hk] at h
        exact h
      rw [List.map_cons, if_neg (show ¬ ((k', s').1 = k) from hk)]
      simp only [unspentValueM]
      rw [ih hnd'.2 h']
      ring

theorem unspentValueM_dictSet_spent (m : NotesMap) (k : Note) :
    (m.map Prod.fst).Nodup → lookupNotes m k = some Spentness.Unspent →
    unspentValueM (dictSet m k Spentness.Spent) = unspentValueM m - k.value := by
  intro hnd h
  unfold dictSet
  rw [if_pos ((any_key_eq_iff m k).mpr (mem_keys_of_lookup m k _ h))]
  exact unspentValueM_map_set_spent m k hnd h

theorem keys_dictSet_of_mem (m : NotesMap) (k : Note) (v : Spentness) :
    k ∈ m.map Prod.fst → (dictSet m k v).map Prod.fst = m.map Prod.fst := by
  intro h
  unfold dictSet
  rw [if_pos ((any_key_eq_iff m k).mpr h)]
  exact keys_map_set m k v

theorem spendAll_facts (l : List Note) : ∀ m : NotesMap,
    (m.map Prod.fst).Nodup → l.Nodup →
    (∀ n ∈ l, lookupNotes m n = some Spentness.Unspent) →
    (spendAllNotes m l).map Prod.fst = m.map Prod.fst ∧
    unspentValueM (spendAllNotes m l) = unspentValueM m - (l.map Note.value).sum := by
  induction l with
  | nil =>
    intro m _ _ _
    exact ⟨rfl, by simp [spendAllNotes]⟩
  | cons n rest ih =>
    intro m hnd hl hall
    have hn : lookupNotes m n = some Spentness.Unspent := hall n (List.mem_cons_self _ _)
    have hkeys : (dictSet m n Spentness.Spent).map Prod.fst = m.map Prod.fst :=
      keys_dictSet_of_mem m n _ (mem_keys_of_lookup m n _ hn)
    have hnd2 : ((dictSet m n Spentness.Spent).map Prod.fst).Nodup := by
      rw [hkeys]; exact hnd
    have hl2 := List.nodup_cons.mp hl
    have hall2 : ∀ x ∈ rest, lookupNotes (dictSet m n Spentness.Spent) x
        = some Spentness.Unspent := by
      intro x hx
      rw [lookup_dictSet_ne m n x _ (fun he => hl2.1 (he ▸ hx))]
      exact hall x (List.mem_cons.mpr (Or.inr hx))
    obtain ⟨hk, hv⟩ := ih (dictSet m n Spentness.Spent) hnd2 hl2.2 hall2
    rw [spendAllNotes]
    refine ⟨by rw [hk, hkeys], ?_⟩
    rw [hv, unspentValueM_dictSet_spent m n hnd hn, List.map_cons, List.sum_cons]
    ring

theorem lookup_spendAll_not_mem (l : List Note) : ∀ (m : NotesMap) (j : Note), j ∉ l →
    lookupNotes (spendAllNotes m l) j = lookupNotes m j := by
  induction l with
  | nil => intro m j _; rfl
  | cons n rest ih =>
    intro m j hj
    rw [spendAllNotes]
    rw [ih (dictSet m n Spentness.Spent) j (fun h => hj (List.mem_cons.mpr (Or.inr h)))]
    exact lookup_dictSet_ne m n j _ (fun he => hj (List.mem_cons.mpr (Or.inl he)))

theorem addOutputNotes_some_eq (l : List Note) : ∀ (m m' : NotesMap),
    addOutputNotes m l = some m' →
    m' = m ++ l.map (fun n => (n, Spentness.Unspent)) ∧
    (∀ n ∈ l, n ∉ m.map Prod.fst) := by
  induction l with
  | nil =>
    intro m m' h
    simp only [addOutputNotes] at h
    injection h with h
    subst h
    exact ⟨by simp, by simp⟩
  | cons n rest ih =>
    intro m m' h
    simp only [addOutputNotes] at h
    by_cases hmem : m.any (fun p => p.1 = n) = true
    · rw [if_pos hmem] at h
      cases h
    · rw [if_neg hmem] at h
      obtain ⟨he, hfresh⟩ := ih (m ++ [(n, Spentness.Unspent)]) m' h
      refine ⟨by rw [he, List.append_assoc]; rfl, ?_⟩
      intro x hx
      rcases List.mem_cons.mp hx with hx | hx
      · subst hx
        intro hm
        exact hmem ((any_key_eq_iff m x).mpr hm)
      · intro hm
        apply hfresh x hx
        rw [List.map_append]
        exact List.mem_append.mpr (Or.inl hm)

theorem addOutputNotes_keys_nodup (l : List Note) : ∀ (m m' : NotesMap),
    (m.map Prod.fst).Nodup → addOutputNotes m l = some m' →
    (m'.map Prod.fst).Nodup := by
  induction l with
  | nil =>
    intro m m' hnd h
    simp only [addOutputNotes] at h
    injection h with h
    subst h
    exact hnd
  | cons n rest ih =>
    intro m m' hnd h
    simp only [addOutputNotes] at h
    by_cases hmem : m.any (fun p => p.1 = n) = true
    · rw [if_pos hmem] at h
      cases h
    · rw [if_neg hmem] at h
      apply ih (m ++ [(n, Spentness.Unspent)]) m' ?_ h
      rw [List.map_append]
      apply List.Nodup.append hnd (by simp)
      intro x hx hx'
      simp only [List.map_cons, List.map_nil, List.mem_singleton] at hx'
      subst hx'
      exact hmem ((any_key_eq_iff m x).mpr hx)

theorem unspentValueM_outputs (l : List Note) :
    unspentValueM (l.map (fun n => (n, Spentness.Unspent))) = (l.map Note.value).sum := by
  induction l with
  | nil => rfl
  | cons n rest ih =>
    simp [unspentValueM, ih]

theorem mkTXOs_map_value (txId : Nat) (vs : List Int) : ∀ i,
    (mkTXOs txId i vs).map TXO.value = vs := by
  induction vs with
  | nil => intro i; rfl
  | cons v rest ih =>
    intro i
    simp only [mkTXOs, List.map_cons, ih]

theorem mkTXOs_txId (txId : Nat) (vs : List Int) : ∀ i, ∀ x ∈ mkTXOs txId i vs,
    x.txId = txId := by
  induction vs with
  | nil => intro i x hx; cases hx
  | cons v rest ih =>
    intro i x hx
    rcases List.mem_cons.mp hx with hx | hx
    · subst hx; rfl
    · exact ih (i + 1) x hx

theorem mkTXOs_index_ge (txId : Nat) (vs : List Int) : ∀ i, ∀ x ∈ mkTXOs txId i vs,
    i ≤ x.index := by
  induction vs with
  | nil => intro i x hx; cases hx
  | cons v rest ih =>
    intro i x hx
    rcases List.mem_cons.mp hx with hx | hx
    · subst hx; exact le_refl _
    · have := ih (i + 1) x hx
      omega

theorem mkTXOs_nodup (txId : Nat) (vs : List Int) : ∀ i, (mkTXOs txId i vs).Nodup := by
  induction vs with
  | nil => intro i; exact List.nodup_nil
  | cons v rest ih =>
    intro i
    rw [mkTXOs]
    apply List.Nodup.cons ?_ (ih (i + 1))
    intro hmem
    have h1 := mkTXOs_index_ge txId rest (i + 1) _ hmem
    have h2 : (⟨txId, i, v⟩ : TXO).index = i := rfl
    omega

theorem mkNotes_map_value (txId : Nat) (vs : List Int) : ∀ i,
    (mkNotes txId i vs).map Note.value = vs := by
  induction vs with
  | nil => intro i; rfl
  | cons v rest ih =>
    intro i
    simp only [mkNotes, List.map_cons, ih]

theorem mkNotes_txId (txId : Nat) (vs : List Int) : ∀ i, ∀ x ∈ mkNotes txId i vs,
    x.txId = txId := by
  induction vs with
  | nil => intro i x hx; cases hx
  | cons v rest ih =>
    intro i x hx
    rcases List.mem_cons.mp hx with hx | hx
    · subst hx; rfl
    · exact ih (i + 1) x hx

theorem keys_spendAll_of_mem (l : List Note) : ∀ m : NotesMap,
    (∀ n ∈ l, n ∈ m.map Prod.fst) →
    (spendAllNotes m l).map Prod.fst = m.map Prod.fst := by
  induction l with
  | nil => intro m _; rfl
  | cons n rest ih =>
    intro m hall
    rw [spendAllNotes]
    have hk : (dictSet m n Spentness.Spent).map Prod.fst = m.map Prod.fst :=
      keys_dictSet_of_mem m n _ (hall n (List.mem_cons_self _ _))
    rw [ih (dictSet m n Spentness.Spent) (fun x hx => by
      rw [hk]; exact hall x (List.mem_cons.mpr (Or.inr hx))), hk]

/--
Identity bookkeeping invariants of a `BCContext` reachable from empty: every
UTXO and every committed note was created by some logged transaction, and the
notes dict has no duplicate keys.
-/
structure IdInv (ctx : BCContext) : Prop where
  utxoIds : ∀ x ∈ ctx.utxo_set, x.txId ∈ ctx.transactions.map BCTransaction.txId
  noteIds : ∀ k ∈ ctx.notes.map Prod.fst, k.txId ∈ ctx.transactions.map BCTransaction.txId
  keysNodup : (ctx.notes.map Prod.fst).Nodup

theorem IdInv_empty : IdInv BCContext.empty := by
  refine ⟨?_, ?_, ?_⟩ <;> simp [BCContext.empty]

theorem is_valid_facts (ctx : BCContext) (tx : BCTransaction) (h : ctx.is_valid tx = true) :
    tx.transparent_inputs.toFinset ⊆ ctx.utxo_set ∧
    ∀ n ∈ tx.shielded_inputs, lookupNotes ctx.notes n = some Spentness.Unspent := by
  unfold BCContext.is_valid BCContext.can_spend canSpendNotes at h
  obtain ⟨h1, h2⟩ := Bool.and_eq_true_iff.mp h
  refine ⟨of_decide_eq_true h1, ?_⟩
  intro n hn
  have := List.all_eq_true.mp h2 n hn
  simpa using this

theorem add_if_valid_true_facts (ctx ctx' : BCContext) (tx : BCTransaction)
    (h : ctx.add_if_valid tx = some (true, ctx')) :
    ctx.is_valid tx = true ∧
    ∃ m, addOutputNotes (spendAllNotes ctx.notes tx.shielded_inputs) tx.shielded_outputs
        = some m ∧
      ctx' = ⟨ctx.transactions ++ [tx],
        (ctx.utxo_set \ tx.transparent_inputs.toFinset) ∪ tx.transparent_outputs.toFinset,
        m, ctx.total_issuance + tx.issuance⟩ := by
  unfold BCContext.add_if_valid at h
  by_cases hv : ctx.is_valid tx = true
  · rw [if_pos hv] at h
    cases hm : addOutputNotes (spendAllNotes ctx.notes tx.shielded_inputs)
        tx.shielded_outputs with
    | none =>
      rw [hm] at h
      cases h
    | some m =>
      rw [hm] at h
      injection h with h
      exact ⟨hv, m, rfl, (congrArg Prod.snd h).symm⟩
  · rw [if_neg hv] at h
    injection h with h
    exact (Bool.false_ne_true (congrArg Prod.fst h)).elim

theorem add_if_valid_step (ctx ctx' : BCContext) (tx : BCTransaction)
    (hinv : IdInv ctx)
    (h : ctx.add_if_valid tx = some (true, ctx')) :
    IdInv ctx' ∧
    ctx'.transactions = ctx.transactions ++ [tx] ∧
    (∀ x ∈ ctx'.utxo_set, x ∈ ctx.utxo_set ∨ x ∈ tx.transparent_outputs) ∧
    (∀ j : Note, lookupNotes ctx.notes j = some Spentness.Spent →
      lookupNotes ctx'.notes j = some Spentness.Spent) := by
  obtain ⟨hv, m, hm, hctx⟩ := add_if_valid_true_facts ctx ctx' tx h
  obtain ⟨hsub, hcs⟩ := is_valid_facts ctx tx hv
  have hmem_keys : ∀ n ∈ tx.shielded_inputs, n ∈ ctx.notes.map Prod.fst :=
    fun n hn => mem_keys_of_lookup _ _ _ (hcs n hn)
  have hkeys_spend : (spendAllNotes ctx.notes tx.shielded_inputs).map Prod.fst
      = ctx.notes.map Prod.fst := keys_spendAll_of_mem _ _ hmem_keys
  obtain ⟨hmeq, _⟩ := addOutputNotes_some_eq _ _ _ hm
  have hpairs : ∀ l : List Note,
      (l.map (fun n => (n, Spentness.Unspent))).map Prod.fst = l := by
    intro l
    induction l with
    | nil => rfl
    | cons a t iht => simp only [List.map_cons, iht]
  have hkeys_m : m.map Prod.fst = ctx.notes.map Prod.fst ++ tx.shielded_outputs := by
    rw [hmeq, List.map_append, hkeys_spend, hpairs]
  have hlogIds : (ctx.transactions ++ [tx]).map BCTransaction.txId
      = ctx.transactions.map BCTransaction.txId ++ [tx.txId] := by
    rw [List.map_append]
    rfl
  subst hctx
  refine ⟨⟨?_, ?_, ?_⟩, rfl, ?_, ?_⟩
  · intro x hx
    rw [hlogIds]
    rcases Finset.mem_union.mp hx with hx | hx
    · exact List.mem_append.mpr (Or.inl (hinv.utxoIds x (Finset.mem_sdiff.mp hx).1))
    · have := mkTXOs_txId tx.txId tx.transparent_output_values 0 x
        (List.mem_toFinset.mp hx)
      rw [this]
      exact List.mem_append.mpr (Or.inr (List.mem_singleton.mpr rfl))
  · intro k hk
    rw [hlogIds]
    rw [hkeys_m] at hk
    rcases List.mem_append.mp hk with hk | hk
    · exact List.mem_append.mpr (Or.inl (hinv.noteIds k hk))
    · have := mkNotes_txId tx.txId tx.shielded_output_values 0 k hk
      rw [this]
      exact List.mem_append.mpr (Or.inr (List.mem_singleton.mpr rfl))
  · apply addOutputNotes_keys_nodup _ _ _ _ hm
    rw [hkeys_spend]
    exact hinv.keysNodup
  · intro x hx
    rcases Finset.mem_union.mp hx with hx | hx
    · exact Or.inl (Finset.mem_sdiff.mp hx).1
    · exact Or.inr (List.mem_toFinset.mp hx)
  · intro j hj
    have hjn : j ∉ tx.shielded_inputs := by
      intro hmemj
      rw [hcs j hmemj] at hj
      cases hj
    rw [hmeq]
    apply lookupNotes_append_left
    rw [lookup_spendAll_not_mem _ _ _ hjn]
    exact hj

theorem applyAll_preserves (l : List BCTransaction) : ∀ ctx ctx',
    IdInv ctx →
    (∀ tx ∈ l, tx.txId ∉ ctx.transactions.map BCTransaction.txId) →
    (l.map BCTransaction.txId).Nodup →
    applyAll ctx l = some ctx' →
    IdInv ctx' ∧
    ctx'.transactions = ctx.transactions ++ l ∧
    (∀ A : TXO, A ∉ ctx.utxo_set → A.txId ∈ ctx.transactions.map BCTransaction.txId →
      A ∉ ctx'.utxo_set) ∧
    (∀ j : Note, lookupNotes ctx.notes j = some Spentness.Spent →
      lookupNotes ctx'.notes j = some Spentness.Spent) := by
  induction l with
  | nil =>
    intro ctx ctx' hinv _ _ happ
    simp only [applyAll] at happ
    injection happ with happ
    subst happ
    exact ⟨hinv, by simp, fun A hA _ => hA, fun j hj => hj⟩
  | cons tx rest ih =>
    intro ctx ctx' hinv hids hnd happ
    simp only [applyAll] at happ
    cases hstep : ctx.add_if_valid tx with
    | none =>
      rw [hstep] at happ
      exact Option.noConfusion happ
    | some pr =>
      obtain ⟨r, c1⟩ := pr
      rw [hstep] at happ
      cases r with
      | false => exact Option.noConfusion happ
      | true =>
        obtain ⟨hinv1, htr1, hutxo1, hnotes1⟩ := add_if_valid_step ctx c1 tx hinv hstep
        have happ' : applyAll c1 rest = some ctx' := happ
        have hndr : tx.txId ∉ rest.map BCTransaction.txId ∧
            (rest.map BCTransaction.txId).Nodup := by
          rw [List.map_cons] at hnd
          exact List.nodup_cons.mp hnd
        have hids1 : ∀ t' ∈ rest, t'.txId ∉ c1.transactions.map BCTransaction.txId := by
          intro t' ht' hmem
          rw [htr1, List.map_append] at hmem
          rcases List.mem_append.mp hmem with hmem | hmem
          · exact hids t' (List.mem_cons.mpr (Or.inr ht')) hmem
          · have : t'.txId = tx.txId := by simpa using hmem
            exact hndr.1 (this ▸ List.mem_map.mpr ⟨t', ht', rfl⟩)
        obtain ⟨hinv', htr', hutxo', hnotes'⟩ := ih c1 ctx' hinv1 hids1 hndr.2 happ'
        refine ⟨hinv', ?_, ?_, ?_⟩
        · rw [htr', htr1, List.append_assoc]
          rfl
        · intro A hA hAid
          apply hutxo' A ?_ ?_
          · intro hA1
            rcases hutxo1 A hA1 with hc | hc
            · exact hA hc
            · have hAtx : A.txId = tx.txId :=
                mkTXOs_txId tx.txId tx.transparent_output_values 0 A hc
              exact hids tx (List.mem_cons_self _ _) (hAtx ▸ hAid)
          · rw [htr1, List.map_append]
            exact List.mem_append.mpr (Or.inl hAid)
        · intro j hj
          exact hnotes' j (hnotes1 j hj)

/--
C5 (amended): along any sequence of successful `add_if_valid` calls from the
empty context in which no transaction object is applied more than once
(pairwise-distinct transaction identities), a transparent output that has been
consumed (present before the middle call, absent after it) never reappears in
the UTXO set, and a note mapped `Spent` never transitions back (it stays
`Spent` in every later state).
-/
theorem at_most_once_spend (l1 l3 : List BCTransaction) (t : BCTransaction)
    (c1 c2 c3 : BCContext) (A : TXO) (N : Note)
    (hids : ((l1 ++ t :: l3).map BCTransaction.txId).Nodup)
    (h1 : applyAll BCContext.empty l1 = some c1)
    (ht : c1.add_if_valid t = some (true, c2))
    (h3 : applyAll c2 l3 = some c3) :
    (A ∈ c1.utxo_set → A ∉ c2.utxo_set → A ∉ c3.utxo_set) ∧
    (lookupNotes c2.notes N = some Spentness.Spent →
      lookupNotes c3.notes N = some Spentness.Spent) := by
  rw [List.map_append] at hids
  obtain ⟨hnd1, hndr, hdisj⟩ := List.nodup_append.mp hids
  obtain ⟨hinv1, htr1, -, -⟩ := applyAll_preserves l1 BCContext.empty c1 IdInv_empty
    (by simp [BCContext.empty]) hnd1 h1
  obtain ⟨hinv2, htr2, hutxo2, hnotes2⟩ := add_if_valid_step c1 c2 t hinv1 ht
  have htc2 : c2.transactions.map BCTransaction.txId
      = l1.map BCTransaction.txId ++ [t.txId] := by
    rw [htr2, htr1, List.map_append]
    simp [BCContext.empty]
  have hndt : t.txId ∉ l3.map BCTransaction.txId ∧ (l3.map BCTransaction.txId).Nodup := by
    rw [List.map_cons] at hndr
    exact List.nodup_cons.mp hndr
  have hids3 : ∀ t' ∈ l3, t'.txId ∉ c2.transactions.map BCTransaction.txId := by
    intro t' ht' hmem
    rw [htc2] at hmem
    rcases List.mem_append.mp hmem with hmem | hmem
    · apply hdisj hmem
      rw [List.map_cons]
      exact List.mem_cons.mpr (Or.inr (List.mem_map.mpr ⟨t', ht', rfl⟩))
    · have he : t'.txId = t.txId := by simpa using hmem
      exact hndt.1 (he ▸ List.mem_map.mpr ⟨t', ht', rfl⟩)
  obtain ⟨hinv3, htr3, hutxo3, hnotes3⟩ :=
    applyAll_preserves l3 c2 c3 hinv2 hids3 hndt.2 h3
  refine ⟨?_, fun hN => hnotes3 N hN⟩
  intro hA1 hA2
  apply hutxo3 A hA2
  rw [htr2, List.map_append]
  exact List.mem_append.mpr (Or.inl (hinv1.utxoIds A hA1))

/-- A coinbase transaction with one transparent output of value 10 (identity 0). -/
def cbTx : BCTransaction := ⟨0, [], [10], [], [], 0, none, 10⟩

/-- A transaction (identity 1) spending `cbTx`'s output into a fresh output. -/
def spTx : BCTransaction := ⟨1, [⟨0, 0, 10⟩], [10], [], [], 0, none, 0⟩

/-- The context after applying `cbTx` to the empty context. -/
def cexC1 : BCContext := (applyAll BCContext.empty [cbTx]).getD BCContext.empty

/-- The context after additionally applying `spTx`. -/
def cexC2 : BCContext := ((cexC1.add_if_valid spTx).getD (false, BCContext.empty)).2

/-- The context after additionally re-applying the same `cbTx` object. -/
def cexC3 : BCContext := (applyAll cexC2 [cbTx]).getD BCContext.empty

/--
C5 as stated is refuted: applying the same (well-formed) coinbase transaction
object twice is accepted by `add_if_valid`, so after `cbTx`, `spTx` (which
consumes `cbTx`'s output) and `cbTx` again — all successful calls — the
consumed TXO is again a member of the UTXO set.
-/
theorem at_most_once_spend_refuted :
    applyAll BCContext.empty [cbTx] = some cexC1 ∧
    cexC1.add_if_valid spTx = some (true, cexC2) ∧
    applyAll cexC2 [cbTx] = some cexC3 ∧
    cbTx.WellFormed ∧ spTx.WellFormed ∧
    (⟨0, 0, 10⟩ : TXO) ∈ cexC1.utxo_set ∧
    (⟨0, 0, 10⟩ : TXO) ∉ cexC2.utxo_set ∧
    (⟨0, 0, 10⟩ : TXO) ∈ cexC3.utxo_set :=
  ⟨rfl, rfl, rfl,
   ⟨by decide, Or.inr (by decide), Or.inr (by decide), by decide, by decide,
    fun _ => rfl, fun h => absurd rfl h⟩,
   ⟨by decide, Or.inl (by decide), Or.inl (by decide), by decide, by decide,
    fun _ => rfl, fun h => absurd rfl h⟩,
   by decide, by decide, by decide⟩

/-- A coinbase (identity 10) with a transparent output of 10 and a shielded note of 5. -/
def wCoinbase : BCTransaction := ⟨10, [], [10], [], [5], 0, none, 15⟩

/-- A transaction (identity 11) spending both outputs of `wCoinbase`. -/
def wSpend : BCTransaction := ⟨11, [⟨10, 0, 10⟩], [15], [⟨10, 0, 5⟩], [], 0,
  some [(⟨10, 0, 5⟩, Spentness.Unspent)], 0⟩

/-- An unrelated coinbase (identity 12). -/
def wCoinbase2 : BCTransaction := ⟨12, [], [7], [], [], 0, none, 7⟩

/-- The context after applying `wCoinbase` to the empty context. -/
def wC1 : BCContext := (applyAll BCContext.empty [wCoinbase]).getD BCContext.empty

/-- The context after additionally applying `wSpend`. -/
def wC2 : BCContext := ((wC1.add_if_valid wSpend).getD (false, BCContext.empty)).2

/-- The context after additionally applying `wCoinbase2`. -/
def wC3 : BCContext := (applyAll wC2 [wCoinbase2]).getD BCContext.empty

/--
Witness for C5 (amended) at concrete inputs: after `wCoinbase`, `wSpend` and
`wCoinbase2` (distinct identities), the consumed TXO stays out of the UTXO set
and the spent note stays `Spent`.
-/
theorem at_most_once_spend_witness :
    (⟨10, 0, 10⟩ : TXO) ∉ wC3.utxo_set ∧
    lookupNotes wC3.notes ⟨10, 0, 5⟩ = some Spentness.Spent :=
  ⟨(at_most_once_spend [wCoinbase] [wCoinbase2] wSpend wC1 wC2 wC3 ⟨10, 0, 10⟩ ⟨10, 0, 5⟩
      (by decide) rfl rfl rfl).1 (by decide) (by decide),
   (at_most_once_spend [wCoinbase] [wCoinbase2] wSpend wC1 wC2 wC3 ⟨10, 0, 10⟩ ⟨10, 0, 5⟩
      (by decide) rfl rfl rfl).2 (by decide)⟩

/-- Value-level invariants of a reachable `BCContext`: the conservation laws. -/
structure Inv (ctx : BCContext) : Prop where
  idinv : IdInv ctx
  iss : ctx.total_issuance = (ctx.transactions.map BCTransaction.issuance).sum
  conserve : utxoValue ctx + unspentValue ctx
    = ctx.total_issuance - (ctx.transactions.map BCTransaction.fee).sum

theorem Inv_empty : Inv BCContext.empty :=
  ⟨IdInv_empty, rfl, by simp [utxoValue, unspentValue, unspentValueM, BCContext.empty]⟩

theorem add_if_valid_conserve_step (ctx ctx' : BCContext) (tx : BCTransaction)
    (hinv : Inv ctx) (hwf : tx.WellFormed)
    (hti : tx.transparent_inputs.Nodup) (hsi : tx.shielded_inputs.Nodup)
    (hfresh : tx.txId ∉ ctx.transactions.map BCTransaction.txId)
    (h : ctx.add_if_valid tx = some (true, ctx')) : Inv ctx' := by
  have hidinv' : IdInv ctx' := (add_if_valid_step ctx ctx' tx hinv.idinv h).1
  obtain ⟨hv, m, hm, hctx⟩ := add_if_valid_true_facts ctx ctx' tx h
  obtain ⟨hsub, hcs⟩ := is_valid_facts ctx tx hv
  have hdisj : Disjoint (ctx.utxo_set \ tx.transparent_inputs.toFinset)
      tx.transparent_outputs.toFinset := by
    rw [Finset.disjoint_left]
    intro x hx hx2
    have hx1 : x ∈ ctx.utxo_set := (Finset.mem_sdiff.mp hx).1
    have hxid : x.txId ∈ ctx.transactions.map BCTransaction.txId :=
      hinv.idinv.utxoIds x hx1
    have hxtx : x.txId = tx.txId := mkTXOs_txId _ _ 0 x (List.mem_toFinset.mp hx2)
    exact hfresh (hxtx ▸ hxid)
  have hsum_union : Finset.sum
        ((ctx.utxo_set \ tx.transparent_inputs.toFinset) ∪ tx.transparent_outputs.toFinset)
        TXO.value
      = Finset.sum (ctx.utxo_set \ tx.transparent_inputs.toFinset) TXO.value
        + Finset.sum tx.transparent_outputs.toFinset TXO.value := Finset.sum_union hdisj
  have hsum_sdiff : Finset.sum (ctx.utxo_set \ tx.transparent_inputs.toFinset) TXO.value
        + Finset.sum tx.transparent_inputs.toFinset TXO.value
      = Finset.sum ctx.utxo_set TXO.value := Finset.sum_sdiff hsub
  have htin : Finset.sum tx.transparent_inputs.toFinset TXO.value
      = (tx.transparent_inputs.map TXO.value).sum := List.sum_toFinset _ hti
  have htoutnd : tx.transparent_outputs.Nodup := mkTXOs_nodup tx.txId _ 0
  have htout : Finset.sum tx.transparent_outputs.toFinset TXO.value
      = tx.transparent_output_values.sum := by
    rw [List.sum_toFinset _ htoutnd]
    rw [show tx.transparent_outputs.map TXO.value = tx.transparent_output_values from
      mkTXOs_map_value tx.txId _ 0]
  obtain ⟨hkeq, hunspent⟩ := spendAll_facts tx.shielded_inputs ctx.notes
    hinv.idinv.keysNodup hsi hcs
  obtain ⟨hmeq, -⟩ := addOutputNotes_some_eq _ _ _ hm
  have hum : unspentValueM m = unspentValueM ctx.notes
      - (tx.shielded_inputs.map Note.value).sum + tx.shielded_output_values.sum := by
    rw [hmeq, unspentValueM_append, hunspent, unspentValueM_outputs]
    rw [show tx.shielded_outputs.map Note.value = tx.shielded_output_values from
      mkNotes_map_value tx.txId _ 0]
  subst hctx
  refine ⟨hidinv', ?_, ?_⟩
  · show ctx.total_issuance + tx.issuance
      = ((ctx.transactions ++ [tx]).map BCTransaction.issuance).sum
    rw [List.map_append, List.sum_append, ← hinv.iss]
    simp
  · show Finset.sum
        ((ctx.utxo_set \ tx.transparent_inputs.toFinset) ∪ tx.transparent_outputs.toFinset)
        TXO.value + unspentValueM m
      = (ctx.total_issuance + tx.issuance)
        - ((ctx.transactions ++ [tx]).map BCTransaction.fee).sum
    rw [List.map_append, List.sum_append, hsum_union, hum]
    have hc := hinv.conserve
    have hb := hwf.balance
    simp only [utxoValue, unspentValue] at hc
    simp only [List.map_cons, List.map_nil, List.sum_cons, List.sum_nil]
    linarith [hsum_sdiff, htin, htout]

theorem applyAll_conserve (l : List BCTransaction) : ∀ ctx ctx',
    Inv ctx →
    (∀ tx ∈ l, tx.WellFormed ∧ tx.transparent_inputs.Nodup ∧ tx.shielded_inputs.Nodup) →
    (∀ tx ∈ l, tx.txId ∉ ctx.transactions.map BCTransaction.txId) →
    (l.map BCTransaction.txId).Nodup →
    applyAll ctx l = some ctx' → Inv ctx' := by
  induction l with
  | nil =>
    intro ctx ctx' hinv _ _ _ happ
    simp only [applyAll] at happ
    injection happ with happ
    subst happ
    exact hinv
  | cons tx rest ih =>
    intro ctx ctx' hinv hwf hids hnd happ
    simp only [applyAll] at happ
    cases hstep : ctx.add_if_valid tx with
    | none =>
      rw [hstep] at happ
      exact Option.noConfusion happ
    | some pr =>
      obtain ⟨r, c1⟩ := pr
      rw [hstep] at happ
      cases r with
      | false => exact Option.noConfusion happ
      | true =>
        have happ' : applyAll c1 rest = some ctx' := happ
        obtain ⟨hw, ht1, hs1⟩ := hwf tx (List.mem_cons_self _ _)
        have hfresh : tx.txId ∉ ctx.transactions.map BCTransaction.txId :=
          hids tx (List.mem_cons_self _ _)
        have hinv1 : Inv c1 :=
          add_if_valid_conserve_step ctx c1 tx hinv hw ht1 hs1 hfresh hstep
        obtain ⟨-, htr1, -, -⟩ := add_if_valid_step ctx c1 tx hinv.idinv hstep
        have hndr : tx.txId ∉ rest.map BCTransaction.txId ∧
            (rest.map BCTransaction.txId).Nodup := by
          rw [List.map_cons] at hnd
          exact List.nodup_cons.mp hnd
        apply ih c1 ctx' hinv1 (fun t' ht' => hwf t' (List.mem_cons.mpr (Or.inr ht')))
          ?_ hndr.2 happ'
        intro t' ht' hmem
        rw [htr1, List.map_append] at hmem
        rcases List.mem_append.mp hmem with hmem | hmem
        · exact hids t' (List.mem_cons.mpr (Or.inr ht')) hmem
        · have he : t'.txId = tx.txId := by simpa using hmem
          exact hndr.1 (he ▸ List.mem_map.mpr ⟨t', ht', rfl⟩)

/--
C1 (amended): after any sequence of successful `add_if_valid` calls from the
empty context, applying well-formed (constructible) transactions, no
transaction object applied more than once (pairwise-distinct identities), and
no transaction listing the same transparent or shielded input twice,
`total_issuance` equals the sum of issuance over the transaction log, and the
UTXO values plus the `Unspent` note values equal `total_issuance` minus the
sum of fees over the log.
-/
theorem conservation (txs : List BCTransaction) (ctx : BCContext)
    (hwf : ∀ tx ∈ txs, tx.WellFormed)
    (hti : ∀ tx ∈ txs, tx.transparent_inputs.Nodup)
    (hsi : ∀ tx ∈ txs, tx.shielded_inputs.Nodup)
    (hids : (txs.map BCTransaction.txId).Nodup)
    (happ : applyAll BCContext.empty txs = some ctx) :
    ctx.total_issuance = (ctx.transactions.map BCTransaction.issuance).sum ∧
    utxoValue ctx + unspentValue ctx
      = ctx.total_issuance - (ctx.transactions.map BCTransaction.fee).sum := by
  have h := applyAll_conserve txs BCContext.empty ctx Inv_empty
    (fun tx htx => ⟨hwf tx htx, hti tx htx, hsi tx htx⟩)
    (by simp [BCContext.empty]) hids happ
  exact ⟨h.iss, h.conserve⟩

/-- The context after applying the same coinbase object twice from empty. -/
def cexD : BCContext := (applyAll BCContext.empty [cbTx, cbTx]).getD BCContext.empty

/--
C1 as stated is refuted: re-applying the same (well-formed) coinbase
transaction object is accepted by `add_if_valid` (its output TXO is already in
the UTXO set, so the set does not grow), after which `total_issuance` is 20
but the UTXO and unspent-note values sum to 10, breaking the conservation
equation `sum(UTXO) + sum(Unspent) = total_issuance - sum(fees)`.
-/
theorem conservation_refuted :
    applyAll BCContext.empty [cbTx, cbTx] = some cexD ∧
    cbTx.WellFormed ∧
    ¬ (utxoValue cexD + unspentValue cexD
        = cexD.total_issuance - (cexD.transactions.map BCTransaction.fee).sum) :=
  ⟨rfl,
   ⟨by decide, Or.inr (by decide), Or.inr (by decide), by decide, by decide,
    fun _ => rfl, fun h => absurd rfl h⟩,
   by decide⟩

/-- The context after applying `wCoinbase`, `wSpend` and `wCoinbase2` from empty. -/
def wCons : BCContext :=
  (applyAll BCContext.empty [wCoinbase, wSpend, wCoinbase2]).getD BCContext.empty

theorem wCoinbase_wf : wCoinbase.WellFormed :=
  ⟨by decide, Or.inr (by decide), Or.inr (by decide), by decide, by decide,
   fun _ => rfl, fun h => absurd rfl h⟩

theorem wSpend_wf : wSpend.WellFormed :=
  ⟨by decide, Or.inl (by decide), Or.inl (by decide), by decide, by decide,
   fun h => List.noConfusion h,
   fun _ => ⟨[(⟨10, 0, 5⟩, Spentness.Unspent)], rfl, by decide⟩⟩

theorem wCoinbase2_wf : wCoinbase2.WellFormed :=
  ⟨by decide, Or.inr (by decide), Or.inr (by decide), by decide, by decide,
   fun _ => rfl, fun h => absurd rfl h⟩

/--
Witness for C1 (amended) at concrete inputs: after `wCoinbase`, `wSpend` and
`wCoinbase2` (distinct identities, duplicate-free inputs), both conservation
equations hold.
-/
theorem conservation_witness :
    wCons.total_issuance = (wCons.transactions.map BCTransaction.issuance).sum ∧
    utxoValue wCons + unspentValue wCons
      = wCons.total_issuance - (wCons.transactions.map BCTransaction.fee).sum :=
  conservation [wCoinbase, wSpend, wCoinbase2] wCons
    (by
      intro tx htx
      simp only [List.mem_cons, List.not_mem_nil, or_false] at htx
      rcases htx with h | h | h
      · exact h ▸ wCoinbase_wf
      · exact h ▸ wSpend_wf
      · exact h ▸ wCoinbase2_wf)
    (by decide) (by decide) (by decide) rfl

end Simtfl
